import Mathlib

/-!
Verification of the CMake-to-bzl conversion tool (`src/toolchain`): a shallow
embedding of its extraction and rendering functions with theorems about them.

The source program scans text with Python regular expressions.  Both patterns
it uses are deterministic: every quantified sub-pattern is followed by a
character it cannot itself match, so greedy/lazy backtracking never changes the
match.  The embedding therefore implements each pattern as a direct scan with
exactly the regex's semantics (`re.findall`: try each position left to right,
after a match continue at its end).  Characters are modelled at the ASCII level
(`\w` is `[A-Za-z0-9_]`, `\s` is `[ \t\n\r\x0b\x0c]`), which covers the tool's
input language.
-/

set_option autoImplicit false
set_option maxRecDepth 16384

namespace Toolchain

/-- ASCII model of the regex class `\w`. -/
def isWordChar (c : Char) : Bool :=
  c.isAlphanum || c = '_'

/-- ASCII model of the regex class `[\s\r\n]` (Python `\s` already contains
`\r` and `\n`). -/
def isPySpace (c : Char) : Bool :=
  c = ' ' || c = '\t' || c = '\n' || c = '\r' || c = '\x0b' || c = '\x0c'

/-- Match a literal string at the head of the input; return the rest on
success. -/
def matchLit : List Char → List Char → Option (List Char)
  | [], s => some s
  | _ :: _, [] => none
  | p :: ps, c :: cs => if p = c then matchLit ps cs else none

/-- One attempted match of the pattern `add_library\((\w+) [^\)]*\)` at the
head of `s` (semantics of the Python regex, which is deterministic here:
`\w+` is a maximal word run because it must be followed by a space, and
`[^\)]*\)` runs to the first `)`).  Returns the captured name and the text
after the match. -/
def matchAddLibrary (s : List Char) : Option (List Char × List Char) :=
  match matchLit "add_library(".toList s with
  | none => none
  | some s1 =>
    if (s1.takeWhile isWordChar).isEmpty then none
    else
      match s1.drop (s1.takeWhile isWordChar).length with
      | [] => none
      | c :: s3 =>
        if c = ' ' then
          match s3.drop (s3.takeWhile (fun x => x ≠ ')')).length with
          | [] => none
          | c2 :: s5 => if c2 = ')' then some (s1.takeWhile isWordChar, s5) else none
        else none

/-- One attempted match of the pattern
`set_target_properties\((\w+) PROPERTIES[\s\r\n]+INTERFACE_LINK_LIBRARIES "(.*?)"[^\)]*\)`
at the head of `s`.  Again deterministic: `\w+` is a maximal word run (next is
a space), `[\s\r\n]+` is a maximal whitespace run (next is `I`), the lazy
`(.*?)"` captures up to the first `"`, and `[^\)]*\)` runs to the first `)`
after it (if no `)` follows the first quote, none follows a later one, so
extending the lazy group cannot rescue the match).  Returns the two captures
(name, quoted string) and the text after the match. -/
def matchSetTarget (s : List Char) : Option ((List Char × List Char) × List Char) :=
  match matchLit "set_target_properties(".toList s with
  | none => none
  | some s1 =>
    if (s1.takeWhile isWordChar).isEmpty then none
    else
      match matchLit " PROPERTIES".toList (s1.drop (s1.takeWhile isWordChar).length) with
      | none => none
      | some s3 =>
        if (s3.takeWhile isPySpace).isEmpty then none
        else
          match matchLit "INTERFACE_LINK_LIBRARIES \"".toList
              (s3.drop (s3.takeWhile isPySpace).length) with
          | none => none
          | some s5 =>
            match s5.drop (s5.takeWhile (fun x => x ≠ '"')).length with
            | [] => none
            | c :: s7 =>
              if c = '"' then
                match s7.drop (s7.takeWhile (fun x => x ≠ ')')).length with
                | [] => none
                | c2 :: s9 =>
                  if c2 = ')' then
                    some ((s1.takeWhile isWordChar, s5.takeWhile (fun x => x ≠ '"')), s9)
                  else none
              else none

/-- `re.findall` scan for the `add_library` pattern.  The fuel starts at the
text's length; every step (match or single-character advance) consumes at
least one character, so the fuel never runs out. -/
def findAllAddAux : Nat → List Char → List (List Char)
  | 0, _ => []
  | fuel + 1, s =>
    match s with
    | [] => []
    | c :: cs =>
      match matchAddLibrary (c :: cs) with
      | some (name, rest) => name :: findAllAddAux fuel rest
      | none => findAllAddAux fuel cs

/-- All `add_library` captures of the text, in order (the source's
`add_library_matches`). -/
def findAllAdd (s : List Char) : List (List Char) :=
  findAllAddAux s.length s

/-- `re.findall` scan for the `set_target_properties` pattern. -/
def findAllSetTargetAux : Nat → List Char → List (List Char × List Char)
  | 0, _ => []
  | fuel + 1, s =>
    match s with
    | [] => []
    | c :: cs =>
      match matchSetTarget (c :: cs) with
      | some (caps, rest) => caps :: findAllSetTargetAux fuel rest
      | none => findAllSetTargetAux fuel cs

/-- All `set_target_properties` capture pairs of the text, in order (the
source's `set_target_properties_pattern_matches`). -/
def findAllSetTarget (s : List Char) : List (List Char × List Char) :=
  findAllSetTargetAux s.length s

/-- `re.sub` with pattern `\\\$<LINK_ONLY:(.*?)>` and replacement `\1`.
This call has no `re.DOTALL`, so `.` does not match a newline: the lazy
capture is the shortest newline-free run followed by `>`.  Scan left to
right; at a match (literal `\$<LINK_ONLY:`, then non-newline characters up to
the first `>` — reaching a newline or the end first means no match) emit the
capture and continue after the match, otherwise emit one character and
advance. -/
def linkOnlySubAux : Nat → List Char → List Char
  | 0, s => s
  | fuel + 1, s =>
    match s with
    | [] => []
    | c :: cs =>
      match matchLit "\\$<LINK_ONLY:".toList (c :: cs) with
      | some s1 =>
        match s1.drop (s1.takeWhile (fun x => x ≠ '>' && x ≠ '\n')).length with
        | c2 :: s3 =>
          if c2 = '>' then
            s1.takeWhile (fun x => x ≠ '>' && x ≠ '\n') ++ linkOnlySubAux fuel s3
          else c :: linkOnlySubAux fuel cs
        | [] => c :: linkOnlySubAux fuel cs
      | none => c :: linkOnlySubAux fuel cs

/-- The generator-expression rewrite applied to one dependency token. -/
def linkOnlySub (s : List Char) : List Char :=
  linkOnlySubAux s.length s

/-- Python `str.split(";")`: splits on every `;`, keeps empty pieces, and
yields `[""]` on the empty string. -/
def splitSemi : List Char → List (List Char)
  | [] => [[]]
  | c :: cs =>
    if c = ';' then [] :: splitSemi cs
    else
      match splitSemi cs with
      | [] => [[c]]
      | t :: ts => (c :: t) :: ts

/-- `list(dict.fromkeys(deps))`: drop duplicates, keeping the first
occurrence of each element. -/
def dedupFirstAux : List (List Char) → List (List Char) → List (List Char)
  | _, [] => []
  | seen, x :: xs =>
    if seen.contains x then dedupFirstAux seen xs
    else x :: dedupFirstAux (x :: seen) xs

/-- Duplicate removal preserving first-occurrence order. -/
def dedupFirst (l : List (List Char)) : List (List Char) :=
  dedupFirstAux [] l

/-- The whole per-match dependency processing of `extract_libraries`:
split the quoted string on `;`, rewrite `\$<LINK_ONLY:...>` tokens, and
deduplicate keeping first occurrences. -/
def normalizeDeps (deps_str : List Char) : List (List Char) :=
  dedupFirst ((splitSemi deps_str).map linkOnlySub)

/-- Insertion-ordered dictionary, modelling a Python `dict`. -/
abbrev Dict := List (List Char × List (List Char))

/-- Python `d[k] = v`: overwrite in place when the key exists (keeping its
position), else append the new pair at the end. -/
def dictSet (m : Dict) (k : List Char) (v : List (List Char)) : Dict :=
  if m.any (fun p => p.1 = k) then
    m.map (fun p => if p.1 = k then (k, v) else p)
  else m ++ [(k, v)]

/-- Python `d[k]` as an option (first — and only — entry with that key). -/
def dictLookup (k : List Char) : Dict → Option (List (List Char))
  | [] => none
  | p :: m => if p.1 = k then some p.2 else dictLookup k m

/-- The keys of the dictionary in insertion order. -/
def dictKeys (m : Dict) : List (List Char) :=
  m.map Prod.fst

/-- `extract_libraries` on a character list: initialize every `add_library`
capture to an empty list, then store the processed dependency list of every
`set_target_properties` match (in match order, last write winning). -/
def extractLibrariesL (contents : List Char) : Dict :=
  let add_library_matches := findAllAdd contents
  let stp_matches := findAllSetTarget contents
  let init := add_library_matches.foldl (fun m name => dictSet m name []) []
  stp_matches.foldl (fun m p => dictSet m p.1 (normalizeDeps p.2)) init

/-- `extract_libraries` at the string level. -/
def extract_libraries (contents : String) : List (String × List String) :=
  (extractLibrariesL contents.toList).map
    (fun p => (String.mk p.1, p.2.map String.mk))

/-- The source's `system_library_map` dictionary. -/
def system_library_map : List (List Char × List Char) :=
  [("m".toList, "-lm".toList),
   ("ZLIB::ZLIB".toList, "-lz".toList),
   ("Terminfo::terminfo".toList, "-lncurses".toList),
   ("LibEdit::LibEdit".toList, "-ledit".toList),
   ("LibXml2::LibXml2".toList, "-lxml2".toList),
   ("-framework CoreServices".toList, "-framework CoreServices".toList),
   ("rt".toList, "-lrt".toList),
   ("dl".toList, "-ldl".toList),
   ("-lpthread".toList, "-lpthread".toList)]

/-- The source's `dep_map` dictionary. -/
def dep_map : List (List Char × List Char) :=
  [("zstd::libzstd_static".toList, "@zstd".toList),
   ("zstd::libzstd_shared".toList, "@zstd".toList)]

/-- The classification loop of the renderer: one pass over the dependency
list, appending to `link_opts` on a `system_library_map` hit, else to
`external_deps` on a `dep_map` hit, else to `internal_deps`. -/
def classifyDeps (lib_deps : List (List Char)) :
    List (List Char) × List (List Char) × List (List Char) :=
  lib_deps.foldl
    (fun acc dep =>
      match List.lookup dep system_library_map with
      | some flag => (acc.1 ++ [flag], acc.2.1, acc.2.2)
      | none =>
        match List.lookup dep dep_map with
        | some lbl => (acc.1, acc.2.1 ++ [lbl], acc.2.2)
        | none => (acc.1, acc.2.1, acc.2.2 ++ [dep]))
    ([], [], [])

/-- The rendered `cc_library` block for one library, exactly as the source
builds `bzl_content` for one entry: the `deps` attribute is emitted when
internal or external deps exist (internals first, then externals), the
`linkopts` attribute when link options exist, and the block ends with a
blank line. -/
def renderBlock (lib_name : List Char) (lib_deps : List (List Char)) : List Char :=
  let c := classifyDeps lib_deps
  let link_opts := c.1
  let external_deps := c.2.1
  let internal_deps := c.2.2
  "cc_library(\n".toList
  ++ "    name = \"lib_".toList ++ lib_name ++ "\",\n".toList
  ++ "    srcs = [\n".toList
  ++ "        \"lib/lib".toList ++ lib_name ++ ".a\",\n".toList
  ++ "    ],\n".toList
  ++ (if internal_deps.length != 0 || external_deps.length != 0 then
        "    deps = [\n".toList
        ++ (internal_deps.map
              (fun d => "        \":lib_".toList ++ d ++ "\",\n".toList)).flatten
        ++ (external_deps.map
              (fun d => "        \"".toList ++ d ++ "\",\n".toList)).flatten
        ++ "    ],\n".toList
      else [])
  ++ (if link_opts.length != 0 then
        "    linkopts = [\n".toList
        ++ (link_opts.map
              (fun o => "        \"".toList ++ o ++ "\",\n".toList)).flatten
        ++ "    ],\n".toList
      else [])
  ++ ")\n\n".toList

/-- The pure part of the source's main conversion function (its file reading
stripped away): extract the libraries and concatenate one rendered block per
entry, in the dictionary's insertion order.  (The source names this function
after the tool; that name is not usable here.) -/
def cmakeRenderL (contents : List Char) : List Char :=
  (extractLibrariesL contents).foldl
    (fun bzl p => bzl ++ renderBlock p.1 p.2) []

/-- The conversion at the string level. -/
def cmakeRender (contents : String) : String :=
  String.mk (cmakeRenderL contents.toList)

/-- Spec-shaped renderer for one library (§4.2 of the spec, written from the
spec's words, to be compared with `renderBlock`): the three sub-lists are
obtained by filtering the dependency list — so each is in the dependency
list's original relative order — the `deps` attribute lists all internal
references first and then all external references and is omitted entirely
when both sub-lists are empty, and the `linkopts` attribute lists the raw
flags and is omitted entirely when empty. -/
def renderBlockSpec (lib_name : List Char) (lib_deps : List (List Char)) : List Char :=
  let internal := lib_deps.filter
    (fun d => (List.lookup d system_library_map).isNone
              && (List.lookup d dep_map).isNone)
  let external := lib_deps.filterMap
    (fun d => match List.lookup d system_library_map with
              | some _ => none
              | none => List.lookup d dep_map)
  let flags := lib_deps.filterMap (fun d => List.lookup d system_library_map)
  "cc_library(\n".toList
  ++ "    name = \"lib_".toList ++ lib_name ++ "\",\n".toList
  ++ "    srcs = [\n".toList
  ++ "        \"lib/lib".toList ++ lib_name ++ ".a\",\n".toList
  ++ "    ],\n".toList
  ++ (if internal.isEmpty && external.isEmpty then []
      else
        "    deps = [\n".toList
        ++ (internal.map
              (fun d => "        \":lib_".toList ++ d ++ "\",\n".toList)).flatten
        ++ (external.map
              (fun d => "        \"".toList ++ d ++ "\",\n".toList)).flatten
        ++ "    ],\n".toList)
  ++ (if flags.isEmpty then []
      else
        "    linkopts = [\n".toList
        ++ (flags.map
              (fun o => "        \"".toList ++ o ++ "\",\n".toList)).flatten
        ++ "    ],\n".toList)
  ++ ")\n\n".toList

/-! ## Helper lemmas -/

theorem matchLit_eq {p s t : List Char} (h : matchLit p s = some t) : s = p ++ t := by
  induction p generalizing s with
  | nil => simpa [matchLit] using h
  | cons a ps ih =>
    cases s with
    | nil => simp [matchLit] at h
    | cons c cs =>
      by_cases hac : a = c
      · subst hac
        simpa using congrArg (List.cons a) (ih (by simpa [matchLit] using h))
      · simp [matchLit, hac] at h

theorem matchLit_self (p t : List Char) : matchLit p (p ++ t) = some t := by
  induction p with
  | nil => simp [matchLit]
  | cons a ps ih => simpa [matchLit] using ih

/-- A list splits as its `takeWhile` prefix followed by the drop of that
prefix's length. -/
theorem takeWhile_drop (p : Char → Bool) (l : List Char) :
    l.takeWhile p ++ l.drop (l.takeWhile p).length = l := by
  induction l with
  | nil => rfl
  | cons c cs ih =>
    by_cases hc : p c
    · simpa [List.takeWhile_cons, hc] using congrArg (List.cons c) ih
    · simp [List.takeWhile_cons, hc]

theorem dictLookup_append (k : List Char) (m l : Dict) :
    dictLookup k (m ++ l)
      = match dictLookup k m with
        | some v => some v
        | none => dictLookup k l := by
  induction m with
  | nil => simp [dictLookup]
  | cons p rest ih =>
    by_cases hp : p.1 = k
    · simp [dictLookup, hp]
    · simpa [dictLookup, hp] using ih

theorem dictLookup_eq_none (k : List Char) (m : Dict)
    (h : m.any (fun p => p.1 = k) = false) : dictLookup k m = none := by
  induction m with
  | nil => rfl
  | cons p rest ih =>
    simp only [List.any_cons, Bool.or_eq_false_iff] at h
    have hp : ¬p.1 = k := by simpa using h.1
    simpa [dictLookup, hp] using ih h.2

theorem dictLookup_mapSet (k j : List Char) (v : List (List Char)) (m : Dict) :
    dictLookup k (m.map (fun p => if p.1 = j then (j, v) else p))
      = if j = k then (if m.any (fun p => p.1 = j) then some v else none)
        else dictLookup k m := by
  induction m with
  | nil => simp [dictLookup]
  | cons p rest ih =>
    by_cases hpj : p.1 = j
    · by_cases hjk : j = k
      · subst hjk
        simp [dictLookup, List.any_cons, hpj]
      · have hpk : ¬p.1 = k := fun h => hjk (hpj.symm.trans h)
        have hkj : ¬k = j := fun h => hjk h.symm
        simp [dictLookup, List.any_cons, hpj, hjk, hpk, hkj, ih]
    · by_cases hpk : p.1 = k
      · have hjk : ¬j = k := fun h => hpj (hpk.trans h.symm)
        have hkj : ¬k = j := fun h => hpj (hpk.trans h)
        simp [dictLookup, List.any_cons, hpj, hpk, hjk, hkj]
      · simp only [List.map_cons, List.any_cons, decide_eq_false hpj, Bool.false_or,
          if_neg hpj, dictLookup, if_neg hpk]
        exact ih

/-- The key law of `dictSet`: looking up `k` after setting key `j` yields the
new value exactly when `j = k`, and is otherwise unchanged. -/
theorem dictLookup_dictSet (m : Dict) (k j : List Char) (v : List (List Char)) :
    dictLookup k (dictSet m j v) = if j = k then some v else dictLookup k m := by
  unfold dictSet
  cases hany : m.any (fun p => p.1 = j) with
  | true => simpa [hany] using dictLookup_mapSet k j v m
  | false =>
    have hnone := dictLookup_eq_none j m hany
    simp only [Bool.false_eq_true, if_false, dictLookup_append]
    by_cases hjk : j = k
    · subst hjk
      simp [hnone, dictLookup]
    · rw [if_neg hjk]
      cases hlk : dictLookup k m with
      | some w => rfl
      | none => simp [dictLookup, hjk]

theorem dictKeys_dictSet (m : Dict) (j : List Char) (v : List (List Char)) :
    dictKeys (dictSet m j v)
      = if m.any (fun p => p.1 = j) then dictKeys m else dictKeys m ++ [j] := by
  unfold dictSet dictKeys
  by_cases hany : m.any (fun p => p.1 = j)
  · rw [if_pos hany, if_pos hany, List.map_map]
    refine List.map_congr_left (fun p _ => ?_)
    by_cases hpj : p.1 = j
    · simp [hpj]
    · simp [hpj]
  · simp [hany]

theorem mem_dictKeys_of_lookup {k : List Char} {m : Dict} {v : List (List Char)}
    (h : dictLookup k m = some v) : k ∈ dictKeys m := by
  induction m with
  | nil => simp [dictLookup] at h
  | cons p rest ih =>
    by_cases hp : p.1 = k
    · simp [dictKeys, hp.symm]
    · simp only [dictLookup, hp, if_false] at h
      simpa [dictKeys] using Or.inr (by simpa [dictKeys] using ih h)

theorem nodup_dictKeys_dictSet {m : Dict} (j : List Char) (v : List (List Char))
    (h : (dictKeys m).Nodup) : (dictKeys (dictSet m j v)).Nodup := by
  rw [dictKeys_dictSet]
  cases hany : m.any (fun p => p.1 = j) with
  | true => simpa using h
  | false =>
    have hj : j ∉ dictKeys m := by
      intro hm
      rcases List.mem_map.1 hm with ⟨p, hpm, hpj⟩
      have htrue : m.any (fun p => p.1 = j) = true :=
        List.any_eq_true.2 ⟨p, hpm, by simp [hpj]⟩
      rw [hany] at htrue
      exact Bool.false_ne_true htrue
    simp only [Bool.false_eq_true, if_false]
    exact List.nodup_append.2 ⟨h, List.nodup_singleton j,
      fun a ha hb => hj ((List.mem_singleton.1 hb) ▸ ha)⟩

/-- Lookup after the initialization fold over the `add_library` captures:
declared names map to the empty list, everything else is untouched. -/
theorem dictLookup_foldl_init (names : List (List Char)) :
    ∀ (m0 : Dict) (k : List Char),
      dictLookup k (names.foldl (fun m name => dictSet m name []) m0)
        = if k ∈ names then some [] else dictLookup k m0 := by
  induction names with
  | nil => intro m0 k; simp
  | cons n ns ih =>
    intro m0 k
    rw [List.foldl_cons, ih]
    by_cases hk : k ∈ ns
    · simp [hk]
    · rw [if_neg hk, dictLookup_dictSet]
      by_cases hnk : n = k
      · simp [hnk.symm]
      · have hkn : ¬k = n := fun h => hnk h.symm
        have hmem : ¬k ∈ n :: ns := by simp [List.mem_cons, hkn, hk]
        simp [hnk, hmem]

/-- Lookup after the storing fold over the `set_target_properties` captures:
the last match for key `k` wins; with no match for `k` the initial dictionary
decides. -/
theorem dictLookup_foldl_stp (l : List (List Char × List Char)) :
    ∀ (m0 : Dict) (k : List Char),
      dictLookup k (l.foldl (fun m p => dictSet m p.1 (normalizeDeps p.2)) m0)
        = match (l.filter (fun p => p.1 = k)).getLast? with
          | some q => some (normalizeDeps q.2)
          | none => dictLookup k m0 := by
  induction l with
  | nil => intro m0 k; simp
  | cons q rest ih =>
    intro m0 k
    rw [List.foldl_cons, ih]
    by_cases hqk : q.1 = k
    · rw [List.filter_cons_of_pos (by simp [hqk])]
      cases hrest : (rest.filter (fun p => p.1 = k)).getLast? with
      | some r =>
        have hlast : (q :: rest.filter (fun p => p.1 = k)).getLast? = some r := by
          cases hfr : rest.filter (fun p => p.1 = k) with
          | nil => rw [hfr] at hrest; simp at hrest
          | cons a as =>
            rw [hfr] at hrest
            rw [List.getLast?_cons_cons]
            exact hrest
        simp [hlast]
      | none =>
        have hfr : rest.filter (fun p => p.1 = k) = [] :=
          List.getLast?_eq_none_iff.1 hrest
        simp [hfr, dictLookup_dictSet, hqk]
    · rw [List.filter_cons_of_neg (by simp [hqk])]
      cases hrest : (rest.filter (fun p => p.1 = k)).getLast? with
      | some r => simp
      | none => simp [dictLookup_dictSet, hqk]

/-- Keys stay duplicate-free through the initialization fold. -/
theorem nodup_foldl_init (names : List (List Char)) :
    ∀ (m0 : Dict), (dictKeys m0).Nodup →
      (dictKeys (names.foldl (fun m name => dictSet m name []) m0)).Nodup := by
  induction names with
  | nil => intro m0 h; simpa using h
  | cons n ns ih =>
    intro m0 h
    exact ih _ (nodup_dictKeys_dictSet n [] h)

/-- Keys stay duplicate-free through the storing fold. -/
theorem nodup_foldl_stp (l : List (List Char × List Char)) :
    ∀ (m0 : Dict), (dictKeys m0).Nodup →
      (dictKeys (l.foldl (fun m p => dictSet m p.1 (normalizeDeps p.2)) m0)).Nodup := by
  induction l with
  | nil => intro m0 h; simpa using h
  | cons q rest ih =>
    intro m0 h
    exact ih _ (nodup_dictKeys_dictSet q.1 _ h)

/-- The workhorse characterization of the extractor's result: the entry for a
key `k` is the processed dependency list of the last `set_target_properties`
match for `k` when one exists, else the empty list when `k` was captured by
`add_library`, else absent. -/
theorem extractLibrariesL_lookup (contents : List Char) (k : List Char) :
    dictLookup k (extractLibrariesL contents)
      = match ((findAllSetTarget contents).filter (fun p => p.1 = k)).getLast? with
        | some q => some (normalizeDeps q.2)
        | none => if k ∈ findAllAdd contents then some [] else none := by
  unfold extractLibrariesL
  rw [dictLookup_foldl_stp]
  cases ((findAllSetTarget contents).filter (fun p => p.1 = k)).getLast? with
  | some q => rfl
  | none => simpa using dictLookup_foldl_init (findAllAdd contents) [] k

/-- The extractor's keys carry no duplicates. -/
theorem extractLibrariesL_nodup (contents : List Char) :
    (dictKeys (extractLibrariesL contents)).Nodup := by
  unfold extractLibrariesL
  exact nodup_foldl_stp _ _ (nodup_foldl_init _ [] (by simp [dictKeys]))

/-- A successful `add_library` pattern match always consumes a space (the
pattern requires one between the identifier and the remaining arguments). -/
theorem matchAddLibrary_space {s : List Char} {r : List Char × List Char}
    (h : matchAddLibrary s = some r) : ' ' ∈ s := by
  unfold matchAddLibrary at h
  split at h
  · exact absurd h (by simp)
  · rename_i s1 hm
    split at h
    · exact absurd h (by simp)
    · split at h
      · exact absurd h (by simp)
      · rename_i c s3 hd
        split at h
        · rename_i hc
          subst hc
          have hs1 : s1 = s1.takeWhile isWordChar ++ (' ' :: s3) := by
            conv_lhs => rw [← takeWhile_drop isWordChar s1]
            rw [hd]
          have : s = "add_library(".toList ++ s1 := matchLit_eq hm
          rw [this, hs1]
          simp
        · exact absurd h (by simp)

/-- A text without a space contains no `add_library` match at any position. -/
theorem findAllAddAux_eq_nil (fuel : Nat) :
    ∀ s : List Char, ' ' ∉ s → findAllAddAux fuel s = [] := by
  induction fuel with
  | zero => intro s _; rfl
  | succ n ih =>
    intro s hs
    cases s with
    | nil => rfl
    | cons c cs =>
      have hcs : ' ' ∉ cs := fun hm => hs (List.mem_cons_of_mem c hm)
      cases hm : matchAddLibrary (c :: cs) with
      | some r => exact absurd (matchAddLibrary_space hm) hs
      | none => simp [findAllAddAux, hm, ih cs hcs]

/-- A successful `set_target_properties` pattern match always consumes two
double quotes: the opening one of the pattern literal and the closing one
demanded after the lazily captured string. -/
theorem matchSetTarget_quotes {s : List Char}
    {r : (List Char × List Char) × List Char}
    (h : matchSetTarget s = some r) : 2 ≤ s.count '"' := by
  unfold matchSetTarget at h
  split at h
  · exact absurd h (by simp)
  · rename_i s1 hm1
    split at h
    · exact absurd h (by simp)
    · split at h
      · exact absurd h (by simp)
      · rename_i s3 hm2
        split at h
        · exact absurd h (by simp)
        · split at h
          · exact absurd h (by simp)
          · rename_i s5 hm3
            split at h
            · exact absurd h (by simp)
            · rename_i c s7 hd
              split at h
              · rename_i hc
                subst hc
                have e1 : s = "set_target_properties(".toList ++ s1 :=
                  matchLit_eq hm1
                have e2 : s1 = s1.takeWhile isWordChar
                    ++ (" PROPERTIES".toList ++ s3) := by
                  conv_lhs => rw [← takeWhile_drop isWordChar s1]
                  rw [matchLit_eq hm2]
                have e3 : s3 = s3.takeWhile isPySpace
                    ++ ("INTERFACE_LINK_LIBRARIES \"".toList ++ s5) := by
                  conv_lhs => rw [← takeWhile_drop isPySpace s3]
                  rw [matchLit_eq hm3]
                have e4 : s5 = s5.takeWhile (fun x => x ≠ '"') ++ ('"' :: s7) := by
                  conv_lhs => rw [← takeWhile_drop (fun x => x ≠ '"') s5]
                  rw [hd]
                have hlit : ("INTERFACE_LINK_LIBRARIES \"".toList).count '"' = 1 := by
                  decide
                rw [e1, List.count_append]
                rw [e2, List.count_append, List.count_append]
                rw [e3, List.count_append, List.count_append]
                rw [e4, List.count_append, List.count_cons]
                simp only [hlit, beq_self_eq_true, if_true]
                omega
              · exact absurd h (by simp)

/-- A text holding at most one double quote contains no
`set_target_properties` match at any position. -/
theorem findAllSetTargetAux_eq_nil (fuel : Nat) :
    ∀ s : List Char, s.count '"' ≤ 1 → findAllSetTargetAux fuel s = [] := by
  induction fuel with
  | zero => intro s _; rfl
  | succ n ih =>
    intro s hs
    cases s with
    | nil => rfl
    | cons c cs =>
      have hcs : cs.count '"' ≤ 1 := by
        rw [List.count_cons] at hs
        omega
      cases hm : matchSetTarget (c :: cs) with
      | some r =>
        have := matchSetTarget_quotes hm
        omega
      | none => simp [findAllSetTargetAux, hm, ih cs hcs]

/-- The classification loop with a general accumulator: it appends, to each
accumulator component, the table lookups filtered out of the dependency list
in its original order. -/
theorem classifyDeps_foldl (l : List (List Char)) :
    ∀ a b c : List (List Char),
      l.foldl
        (fun acc dep =>
          match List.lookup dep system_library_map with
          | some flag => (acc.1 ++ [flag], acc.2.1, acc.2.2)
          | none =>
            match List.lookup dep dep_map with
            | some lbl => (acc.1, acc.2.1 ++ [lbl], acc.2.2)
            | none => (acc.1, acc.2.1, acc.2.2 ++ [dep]))
        (a, b, c)
      = (a ++ l.filterMap (fun d => List.lookup d system_library_map),
         b ++ l.filterMap (fun d =>
               match List.lookup d system_library_map with
               | some _ => none
               | none => List.lookup d dep_map),
         c ++ l.filter (fun d => (List.lookup d system_library_map).isNone
               && (List.lookup d dep_map).isNone)) := by
  induction l with
  | nil => intro a b c; simp
  | cons d rest ih =>
    intro a b c
    rw [List.foldl_cons]
    cases hs : List.lookup d system_library_map with
    | some flag =>
      simp only [hs]
      rw [ih]
      simp [List.filterMap_cons, List.filter_cons, hs]
    | none =>
      cases hdm : List.lookup d dep_map with
      | some lbl =>
        simp only [hs, hdm]
        rw [ih]
        simp [List.filterMap_cons, List.filter_cons, hs, hdm]
      | none =>
        simp only [hs, hdm]
        rw [ih]
        simp [List.filterMap_cons, List.filter_cons, hs, hdm]

/-- The three classified sub-lists are the table lookups filtered out of the
dependency list, each in the dependency list's original relative order. -/
theorem classifyDeps_eq (l : List (List Char)) :
    classifyDeps l
      = (l.filterMap (fun d => List.lookup d system_library_map),
         l.filterMap (fun d =>
               match List.lookup d system_library_map with
               | some _ => none
               | none => List.lookup d dep_map),
         l.filter (fun d => (List.lookup d system_library_map).isNone
               && (List.lookup d dep_map).isNone)) := by
  unfold classifyDeps
  rw [classifyDeps_foldl]
  simp

theorem ifLenTwo (A B : List (List Char)) (x : List Char) :
    (if A.length != 0 || B.length != 0 then x else [])
      = (if A.isEmpty && B.isEmpty then [] else x) := by
  cases A <;> cases B <;> simp

theorem ifLenOne (A : List (List Char)) (x : List Char) :
    (if A.length != 0 then x else []) = (if A.isEmpty then [] else x) := by
  cases A <;> simp

theorem takeWhile_ne_append (a b : Char) (l rest : List Char)
    (h : a ∉ l) (hb : b ∉ l) :
    (l ++ a :: rest).takeWhile (fun x => x ≠ a && x ≠ b) = l := by
  induction l with
  | nil => simp [List.takeWhile_cons]
  | cons c cs ih =>
    have hca : ¬(c = a) := fun hc => h (by simp [hc])
    have hcb : ¬(c = b) := fun hc => hb (by simp [hc])
    have hcs : a ∉ cs := fun hm => h (List.mem_cons_of_mem _ hm)
    have hcsb : b ∉ cs := fun hm => hb (List.mem_cons_of_mem _ hm)
    simpa [List.takeWhile_cons, hca, hcb] using congrArg (List.cons c) (ih hcs hcsb)

theorem linkOnlySubAux_nil (fuel : Nat) : linkOnlySubAux fuel [] = [] := by
  cases fuel <;> rfl

/-- One rewriting step of the generator-expression substitution at the head
of the text (for a newline-free inner, since the pattern's `.` does not cross
newlines): the wrapper is removed and scanning resumes after it. -/
theorem linkOnlySubAux_head (fuel : Nat) (inner rest : List Char)
    (h : '>' ∉ inner) (hn : '\n' ∉ inner) :
    linkOnlySubAux (fuel + 1) ("\\$<LINK_ONLY:".toList ++ (inner ++ '>' :: rest))
      = inner ++ linkOnlySubAux fuel rest := by
  have hcons : "\\$<LINK_ONLY:".toList ++ (inner ++ '>' :: rest)
      = '\\' :: ("$<LINK_ONLY:".toList ++ (inner ++ '>' :: rest)) := rfl
  have hm : matchLit "\\$<LINK_ONLY:".toList
        ("\\$<LINK_ONLY:".toList ++ (inner ++ '>' :: rest))
      = some (inner ++ '>' :: rest) := matchLit_self _ _
  rw [hcons] at hm
  have htw : (inner ++ '>' :: rest).takeWhile (fun x => x ≠ '>' && x ≠ '\n') = inner :=
    takeWhile_ne_append '>' '\n' inner rest h hn
  rw [hcons]
  simp only [linkOnlySubAux, hm, htw, List.drop_left]
  simp

theorem count_eq_zero_of_not_mem_keys {l : List (List Char)} {a : List Char}
    (h : a ∉ l) : l.count a = 0 := by
  induction l with
  | nil => rfl
  | cons b bs ih =>
    have hab : ¬a = b := fun he => h (by simp [he])
    have hbs : a ∉ bs := fun hm => h (List.mem_cons_of_mem _ hm)
    simp [List.count_cons, hab, ih hbs]

theorem count_eq_one_of_mem_keys {l : List (List Char)} {a : List Char}
    (hn : l.Nodup) (ha : a ∈ l) : l.count a = 1 := by
  induction l with
  | nil => exact absurd ha (List.not_mem_nil a)
  | cons b bs ih =>
    rcases List.mem_cons.1 ha with hab | hmem
    · subst hab
      have hnot : a ∉ bs := (List.nodup_cons.1 hn).1
      simp [List.count_cons, count_eq_zero_of_not_mem_keys hnot]
    · have hab : ¬a = b := fun he => (List.nodup_cons.1 hn).1 (he ▸ hmem)
      simp [List.count_cons, hab, ih (List.nodup_cons.1 hn).2 hmem]

/-! ## The claims -/

/-- C1 is false as stated: in the input below the `set_target_properties`
declaration names `Foo`, no `add_library` declaration exists at all, and yet
`Foo` does appear as a key of the extractor's mapping — the declaration is
inserted, not silently dropped. -/
theorem claim1_counterexample :
    findAllAdd ("set_target_properties(Foo PROPERTIES\n  INTERFACE_LINK_LIBRARIES \"Bar\"\n)\n").toList = []
    ∧ ("Foo".toList, "Bar".toList)
        ∈ findAllSetTarget ("set_target_properties(Foo PROPERTIES\n  INTERFACE_LINK_LIBRARIES \"Bar\"\n)\n").toList
    ∧ "Foo".toList
        ∈ dictKeys (extractLibrariesL ("set_target_properties(Foo PROPERTIES\n  INTERFACE_LINK_LIBRARIES \"Bar\"\n)\n").toList) := by
  decide

/-- C1 amended: a `set_target_properties` declaration whose library
identifier was never declared via `add_library` is NOT dropped — for every
input text, every identifier captured by a `set_target_properties` match
appears as a key in the resulting mapping. -/
theorem claim1_amended (contents name dstr : List Char)
    (h : (name, dstr) ∈ findAllSetTarget contents) :
    name ∈ dictKeys (extractLibrariesL contents) := by
  have hf : (findAllSetTarget contents).filter (fun p => p.1 = name) ≠ [] := by
    intro hnil
    have hmem : (name, dstr)
        ∈ (findAllSetTarget contents).filter (fun p => p.1 = name) :=
      List.mem_filter.2 ⟨h, by simp⟩
    rw [hnil] at hmem
    exact absurd hmem (List.not_mem_nil _)
  cases hlast : ((findAllSetTarget contents).filter (fun p => p.1 = name)).getLast? with
  | none => exact absurd (List.getLast?_eq_none_iff.1 hlast) hf
  | some q =>
    have hl := extractLibrariesL_lookup contents name
    rw [hlast] at hl
    exact mem_dictKeys_of_lookup hl

theorem claim1_witness :
    "Foo".toList
      ∈ dictKeys (extractLibrariesL ("set_target_properties(Foo PROPERTIES\n  INTERFACE_LINK_LIBRARIES \"Bar\"\n)\n").toList) :=
  claim1_amended _ "Foo".toList "Bar".toList (by decide)

/-- C2: on the given round-trip input the rendered output is byte-identical
to the expected `cc_library` block, including the blank line after the
(last) block. -/
theorem claim2_roundtrip :
    cmakeRender "add_library(Foo STATIC IMPORTED)\nset_target_properties(Foo PROPERTIES\n  INTERFACE_LINK_LIBRARIES \"Bar;ZLIB::ZLIB\"\n)\n"
      = "cc_library(\n    name = \"lib_Foo\",\n    srcs = [\n        \"lib/libFoo.a\",\n    ],\n    deps = [\n        \":lib_Bar\",\n    ],\n    linkopts = [\n        \"-lz\",\n    ],\n)\n\n" := by
  decide

/-- C3 is false as stated: the input below contains an `add_library`
declaration for `X` and a matching `set_target_properties` declaration with
quoted string `A;B;A;C`, yet the stored list for `X` is `["D"]`, because a
second matching declaration follows and the last match wins. -/
theorem claim3_counterexample :
    "X".toList ∈ findAllAdd ("add_library(X A)\nset_target_properties(X PROPERTIES\n  INTERFACE_LINK_LIBRARIES \"A;B;A;C\"\n)\nset_target_properties(X PROPERTIES\n  INTERFACE_LINK_LIBRARIES \"D\"\n)\n").toList
    ∧ ("X".toList, "A;B;A;C".toList)
        ∈ findAllSetTarget ("add_library(X A)\nset_target_properties(X PROPERTIES\n  INTERFACE_LINK_LIBRARIES \"A;B;A;C\"\n)\nset_target_properties(X PROPERTIES\n  INTERFACE_LINK_LIBRARIES \"D\"\n)\n").toList
    ∧ dictLookup "X".toList (extractLibrariesL ("add_library(X A)\nset_target_properties(X PROPERTIES\n  INTERFACE_LINK_LIBRARIES \"A;B;A;C\"\n)\nset_target_properties(X PROPERTIES\n  INTERFACE_LINK_LIBRARIES \"D\"\n)\n").toList)
        = some ["D".toList] := by
  decide

/-- C3 amended: when the LAST `set_target_properties` match for `X` carries
the quoted string `A;B;A;C` (in particular when it is the only one), the
stored list for `X` is exactly `["A","B","C"]` — duplicates removed,
first-occurrence order preserved. -/
theorem claim3_amended (contents X : List Char)
    (_h1 : X ∈ findAllAdd contents)
    (h2 : ((findAllSetTarget contents).filter (fun p => p.1 = X)).getLast?
            = some (X, "A;B;A;C".toList)) :
    dictLookup X (extractLibrariesL contents)
      = some ["A".toList, "B".toList, "C".toList] := by
  have hl := extractLibrariesL_lookup contents X
  rw [h2] at hl
  rw [hl]
  show some (normalizeDeps "A;B;A;C".toList) = _
  decide

theorem claim3_witness :
    dictLookup "X".toList (extractLibrariesL ("add_library(X A)\nset_target_properties(X PROPERTIES\n  INTERFACE_LINK_LIBRARIES \"A;B;A;C\"\n)\n").toList)
      = some ["A".toList, "B".toList, "C".toList] :=
  claim3_amended _ _ (by decide) (by decide)

/-- C4: a token of the exact shape `\$<LINK_ONLY:inner>` — for any `inner`
free of `>` and of newlines, the pattern's `.` matching neither (the `re.sub`
call has no DOTALL) — is rewritten to `inner`, and the rewrite happens before
deduplication, so the dependency string `clangAST;\$<LINK_ONLY:clangAST>`
processes to the single token `clangAST`. -/
theorem claim4_linkonly (inner : List Char) (h : '>' ∉ inner) (hn : '\n' ∉ inner) :
    linkOnlySub ("\\$<LINK_ONLY:".toList ++ (inner ++ ['>'])) = inner
    ∧ normalizeDeps "clangAST;\\$<LINK_ONLY:clangAST>".toList = ["clangAST".toList] := by
  constructor
  · have hcons : "\\$<LINK_ONLY:".toList ++ (inner ++ ['>'])
        = '\\' :: ("$<LINK_ONLY:".toList ++ (inner ++ ['>'])) := rfl
    have hlen : ("\\$<LINK_ONLY:".toList ++ (inner ++ ['>'])).length
        = ("$<LINK_ONLY:".toList ++ (inner ++ ['>'])).length + 1 := by
      rw [hcons]; rfl
    unfold linkOnlySub
    rw [hlen, linkOnlySubAux_head _ inner [] h hn, linkOnlySubAux_nil, List.append_nil]
  · decide

theorem claim4_witness :
    linkOnlySub ("\\$<LINK_ONLY:".toList ++ ("clangAST".toList ++ ['>'])) = "clangAST".toList :=
  (claim4_linkonly "clangAST".toList (by decide) (by decide)).1

/-- C5: classification follows the two fixed tables with system matches
first, then external matches, then the internal default — each table entry
maps as specified — and the dependency list `["LLVMMC","m","zstd::libzstd_static"]`
renders with `:lib_LLVMMC` then `@zstd` in `deps` and `-lm` in `linkopts`,
both attributes present. -/
theorem claim5_classification :
    classifyDeps ["LLVMMC".toList, "m".toList, "zstd::libzstd_static".toList]
      = (["-lm".toList], ["@zstd".toList], ["LLVMMC".toList])
    ∧ renderBlock "X".toList ["LLVMMC".toList, "m".toList, "zstd::libzstd_static".toList]
      = ("cc_library(\n    name = \"lib_X\",\n    srcs = [\n        \"lib/libX.a\",\n    ],\n    deps = [\n        \":lib_LLVMMC\",\n        \"@zstd\",\n    ],\n    linkopts = [\n        \"-lm\",\n    ],\n)\n\n").toList
    ∧ classifyDeps ["m".toList] = (["-lm".toList], [], [])
    ∧ classifyDeps ["ZLIB::ZLIB".toList] = (["-lz".toList], [], [])
    ∧ classifyDeps ["Terminfo::terminfo".toList] = (["-lncurses".toList], [], [])
    ∧ classifyDeps ["LibEdit::LibEdit".toList] = (["-ledit".toList], [], [])
    ∧ classifyDeps ["LibXml2::LibXml2".toList] = (["-lxml2".toList], [], [])
    ∧ classifyDeps ["-framework CoreServices".toList]
        = (["-framework CoreServices".toList], [], [])
    ∧ classifyDeps ["rt".toList] = (["-lrt".toList], [], [])
    ∧ classifyDeps ["dl".toList] = (["-ldl".toList], [], [])
    ∧ classifyDeps ["-lpthread".toList] = (["-lpthread".toList], [], [])
    ∧ classifyDeps ["zstd::libzstd_static".toList] = ([], ["@zstd".toList], [])
    ∧ classifyDeps ["zstd::libzstd_shared".toList] = ([], ["@zstd".toList], [])
    ∧ classifyDeps ["LLVMMC".toList] = ([], [], ["LLVMMC".toList]) := by
  refine ⟨by decide, by decide, by decide, by decide, by decide, by decide, by decide,
    by decide, by decide, by decide, by decide, by decide, by decide, by decide⟩

/-- C6: for every library record the rendered block equals the spec-shaped
block: internal references first then external references inside `deps`,
each sub-list in the dependency list's original relative order, link flags
in original order, and the `deps` / `linkopts` attributes omitted entirely
when their contributing lists are empty. -/
theorem claim6_render_shape (lib_name : List Char) (lib_deps : List (List Char)) :
    renderBlock lib_name lib_deps = renderBlockSpec lib_name lib_deps := by
  simp only [renderBlock, renderBlockSpec, classifyDeps_eq, ifLenTwo, ifLenOne]

/-- C7: every identifier captured by `add_library` appears exactly once as a
key of the extractor's mapping, and when no `set_target_properties` match
names it, its dependency list is empty. -/
theorem claim7_unique_key (contents X : List Char) (h : X ∈ findAllAdd contents) :
    (dictKeys (extractLibrariesL contents)).count X = 1
    ∧ ((findAllSetTarget contents).filter (fun p => p.1 = X) = [] →
        dictLookup X (extractLibrariesL contents) = some []) := by
  have hl := extractLibrariesL_lookup contents X
  constructor
  · have hmem : X ∈ dictKeys (extractLibrariesL contents) := by
      cases hlast : ((findAllSetTarget contents).filter (fun p => p.1 = X)).getLast? with
      | some q =>
        rw [hlast] at hl
        exact mem_dictKeys_of_lookup hl
      | none =>
        rw [hlast] at hl
        have hl2 : dictLookup X (extractLibrariesL contents)
            = if X ∈ findAllAdd contents then some [] else none := hl
        rw [if_pos h] at hl2
        exact mem_dictKeys_of_lookup hl2
    exact count_eq_one_of_mem_keys (extractLibrariesL_nodup contents) hmem
  · intro hfil
    rw [hfil] at hl
    simpa [h] using hl

theorem claim7_witness :
    "X".toList ∈ findAllAdd ("add_library(X A)\n").toList
    ∧ (dictKeys (extractLibrariesL ("add_library(X A)\n").toList)).count "X".toList = 1 :=
  ⟨by decide, (claim7_unique_key _ _ (by decide)).1⟩

/-- C8 is false as stated: in the input below the declaration for `A` has a
malformed quoted string (its opening quote is never balanced within that
declaration), yet the extractor does NOT simply drop it — the lazy capture
runs on to the opening quote of the next declaration, and a garbled entry
for `A` is produced (swallowing `B`'s declaration entirely). -/
theorem claim8_counterexample :
    findAllSetTarget ("set_target_properties(A PROPERTIES\n  INTERFACE_LINK_LIBRARIES \"x\n)\nset_target_properties(B PROPERTIES\n  INTERFACE_LINK_LIBRARIES \"y\"\n)\n").toList
      = [("A".toList, "x\n)\nset_target_properties(B PROPERTIES\n  INTERFACE_LINK_LIBRARIES ".toList)]
    ∧ dictLookup "A".toList (extractLibrariesL ("set_target_properties(A PROPERTIES\n  INTERFACE_LINK_LIBRARIES \"x\n)\nset_target_properties(B PROPERTIES\n  INTERFACE_LINK_LIBRARIES \"y\"\n)\n").toList)
      = some ["x\n)\nset_target_properties(B PROPERTIES\n  INTERFACE_LINK_LIBRARIES ".toList] := by
  decide

/-- C8 amended: when the malformed opening quote is never balanced by ANY
later quote in the text — the text holds at most one double quote — the
extractor produces no `set_target_properties` match at all, never a partial
or garbled entry, and this is not an error: extraction degenerates to the
`add_library` entries, each with the empty list.  (With a later quote
present in the text, the lazy capture instead closes there and a garbled
entry can appear — see the counterexample.) -/
theorem claim8_malformed (contents : List Char) (h : contents.count '"' ≤ 1) :
    findAllSetTarget contents = []
    ∧ ∀ k, dictLookup k (extractLibrariesL contents)
        = if k ∈ findAllAdd contents then some [] else none := by
  have hstp : findAllSetTarget contents = [] :=
    findAllSetTargetAux_eq_nil _ _ h
  refine ⟨hstp, fun k => ?_⟩
  have hl := extractLibrariesL_lookup contents k
  rw [hstp] at hl
  simpa using hl

theorem claim8_witness :
    ("add_library(Foo A)\nset_target_properties(Foo PROPERTIES\n  INTERFACE_LINK_LIBRARIES \"A;B\n)\n").toList.count '"' ≤ 1
    ∧ findAllSetTarget ("add_library(Foo A)\nset_target_properties(Foo PROPERTIES\n  INTERFACE_LINK_LIBRARIES \"A;B\n)\n").toList = [] :=
  ⟨by decide, (claim8_malformed _ (by decide)).1⟩

/-- C9: the final dependency list for `X` equals the processed list of the
last `set_target_properties` match for `X` whenever one exists — independent
of where (or whether) `add_library(X)` occurrences appear in the text, so a
later `add_library(X)` never resets a parsed properties entry. -/
theorem claim9_last_match (contents X dstr : List Char)
    (h : ((findAllSetTarget contents).filter (fun p => p.1 = X)).getLast?
          = some (X, dstr)) :
    dictLookup X (extractLibrariesL contents) = some (normalizeDeps dstr) := by
  have hl := extractLibrariesL_lookup contents X
  rw [h] at hl
  exact hl

theorem claim9_witness :
    dictLookup "X".toList (extractLibrariesL ("set_target_properties(X PROPERTIES\n  INTERFACE_LINK_LIBRARIES \"D\"\n)\nadd_library(X A)\n").toList)
      = some (normalizeDeps "D".toList) :=
  claim9_last_match _ _ _ (by decide)

/-- C10: the `add_library` pattern requires a space after the identifier, so
a text without any space — such as `add_library(Foo)` — produces no match:
no key appears in the mapping and no rule block is emitted. -/
theorem claim10_no_space (contents : List Char) (h : ' ' ∉ contents) :
    findAllAdd contents = []
    ∧ extract_libraries "add_library(Foo)\n" = []
    ∧ cmakeRender "add_library(Foo)\n" = "" := by
  refine ⟨findAllAddAux_eq_nil _ _ h, ?_, ?_⟩ <;> decide

theorem claim10_witness :
    ' ' ∉ ("add_library(Foo)\n").toList
    ∧ findAllAdd ("add_library(Foo)\n").toList = [] :=
  ⟨by decide, (claim10_no_space _ (by decide)).1⟩

end Toolchain
